import Mathlib

/-!
Verification development for the novel2epub extractor (src/main.rs).

The program scrapes a chapter-paginated web novel site and assembles an
EPUB.  External collaborators (HTTP transport, the scraper HTML/CSS-selector
engine, the epub builder, the filesystem) are modelled abstractly:

* a parsed page is represented by the results its selector lookups would
  produce (`Option` for "element found", nested `Option` for "attribute
  present"), since the extraction code only ever queries those;
* HTTP fetching is an oracle `String → Except NovelError ChapterPage`;
* the filesystem is a map `String → Option String` from paths to contents.

All text processing (the regex-based normalizations) is embedded faithfully
over `List Char`, with `[[:alpha:]]` as the ASCII alphabetic class (as in the
regex crate) and `\s` as the Unicode `White_Space` class.  `\d` is embedded
as the ASCII digit class, the relevant subset for the URLs and filenames the
program produces.
-/

namespace Novel2Epub

/-- The error enum from src/main.rs (`NovelError`).  String payloads carry
the selector path / attribute name / status text exactly as in the source. -/
inductive NovelError where
  | Http (s : String)
  | Empty
  | Attr (s : String)
  | Selector (s : String)
  | InvalidUrl
  | Image
  | Other (s : String)
  deriving DecidableEq, Repr

/-- `impl Display for NovelError` is `write!(f, "{}", self)`: formatting the
error invokes the very same `Display::fmt` on `self` again.  Modelled with
explicit fuel: each unit of fuel is one recursive `fmt` call; producing a
string would require the recursion to bottom out, which it never does, so
the function can only exhaust its fuel (`none`). -/
def NovelError.displayFmt : Nat → NovelError → Option String
  | 0, _ => none
  | n + 1, e => NovelError.displayFmt n e

/-! ### Character classes used by the regexes -/

/-- The character class of the title-scrubbing regex
`[\\|/|:|"|\n|\r\n|?]{1,}`: as a regex character class this is the set
`{ \ | / : " LF CR ? }` (the `|` is a literal inside a class). -/
def isForbiddenTitleChar (c : Char) : Bool :=
  c = '\\' || c = '|' || c = '/' || c = ':' || c = '"' ||
  c = '\n' || c = '\r' || c = '?'

/-- Unicode `White_Space`, the class matched by `\s` in the regex crate and
tested by Rust's `char::is_whitespace` (used by `str::trim`). -/
def isWhite (c : Char) : Bool :=
  c = '\t' || c = '\n' || c = '\u000B' || c = '\u000C' || c = '\r' ||
  c = ' ' || c = '\u0085' || c = '\u00A0' || c = '\u1680' ||
  ('\u2000' ≤ c && c ≤ '\u200A') ||
  c = '\u2028' || c = '\u2029' || c = '\u202F' || c = '\u205F' || c = '\u3000'

/-- ASCII alphabetic, the `[[:alpha:]]` POSIX class of the regex crate. -/
def isAsciiAlpha (c : Char) : Bool :=
  ('a' ≤ c && c ≤ 'z') || ('A' ≤ c && c ≤ 'Z')

/-- ASCII digit (the inputs relevant here are ASCII, see the header note). -/
def isAsciiDigit (c : Char) : Bool :=
  '0' ≤ c && c ≤ '9'

/-- `str::trim`: drop leading and trailing whitespace. -/
def trimL (l : List Char) : List Char :=
  ((l.dropWhile isWhite).reverse.dropWhile isWhite).reverse

/-- `Regex::replace_all` of `⟨class⟩{m,}` with the empty string: scan left to
right; at the first character of a maximal run of class characters, if the
run has length at least `m` it is a (leftmost, greedy) match and is deleted,
otherwise the run is kept; scanning resumes after the run. -/
theorem dropWhile_length_le (p : Char → Bool) (l : List Char) :
    (l.dropWhile p).length ≤ l.length := by
  induction l with
  | nil => simp [List.dropWhile]
  | cons c r ih =>
    by_cases h : p c
    · rw [List.dropWhile_cons_of_pos h]
      exact Nat.le_succ_of_le ih
    · rw [List.dropWhile_cons_of_neg h]

def removeRuns (p : Char → Bool) (m : Nat) : List Char → List Char
  | [] => []
  | c :: rest =>
    if hp : p c then
      if m ≤ ((c :: rest).takeWhile p).length then
        removeRuns p m ((c :: rest).dropWhile p)
      else
        (c :: rest).takeWhile p ++ removeRuns p m ((c :: rest).dropWhile p)
    else c :: removeRuns p m rest
  termination_by l => l.length
  decreasing_by
  · rw [List.dropWhile_cons_of_pos hp]
    exact Nat.lt_succ_of_le (dropWhile_length_le p rest)
  · rw [List.dropWhile_cons_of_pos hp]
    exact Nat.lt_succ_of_le (dropWhile_length_le p rest)
  · exact Nat.lt_succ_self _

/-- The title normalization pipeline shared by `CoverPage::title` and
`ChapterPage::title`: trim the selected inner html, delete every run of
forbidden characters (`{1,}`, i.e. delete every forbidden character), trim
again, then delete every run of two or more whitespace characters
(`\s{2,}` replaced by the empty string, not by a space). -/
def normalizeTitleL (l : List Char) : List Char :=
  removeRuns isWhite 2 (trimL (removeRuns isForbiddenTitleChar 1 (trimL l)))

/-- String-level wrapper of the title normalization. -/
def normalizeTitle (s : String) : String :=
  String.mk (normalizeTitleL s.data)

/-! ### Ad stripping (`ChapterPage::remove_ad`) -/

/-- `startsWithL pat l`: `pat` is a prefix of `l`. -/
def startsWithL : List Char → List Char → Bool
  | [], _ => true
  | _ :: _, [] => false
  | p :: ps, c :: cs => p = c && startsWithL ps cs

/-- The `.*?</div>` tail of the ad regex at the current position: the number
of characters consumed by the lazy (shortest-first) middle plus the closing
literal, if any.  `.` does not match a newline in the regex crate, so hitting
a newline before a `</div>` kills the match at this start position. -/
def lazyClose : List Char → Option Nat
  | [] => none
  | c :: rest =>
    if startsWithL ['<', '/', 'd', 'i', 'v', '>'] (c :: rest) then some 6
    else if c = '\n' then none
    else (lazyClose rest).map (· + 1)

/-- Length of the match of `<div.*?</div>` starting exactly at the head of
`l`, if one exists. -/
def divMatchLenAt (l : List Char) : Option Nat :=
  if startsWithL ['<', 'd', 'i', 'v'] l then (lazyClose (l.drop 4)).map (4 + ·) else none

/-- `Regex::new("<div.*?</div>").replace_all(text, "")`: a single left-to-right
pass; each leftmost match is deleted and scanning resumes after the match
(matches are non-overlapping; the replaced text is not rescanned). -/
def removeAds : List Char → List Char
  | [] => []
  | c :: rest =>
    match h : divMatchLenAt (c :: rest) with
    | some L => removeAds ((c :: rest).drop L)
    | none => c :: removeAds rest
  termination_by l => l.length
  decreasing_by
  · have hL : 4 ≤ L := by
      unfold divMatchLenAt at h
      split at h
      · obtain ⟨k, -, hk⟩ := Option.map_eq_some'.mp h
        omega
      · simp at h
    simp only [List.length_drop, List.length_cons]
    omega
  · simp only [List.length_cons]
    omega

/-- The leftmost match of `<div.*?</div>` in `l`, as (start index, length). -/
def leftmostDivMatch : List Char → Option (Nat × Nat)
  | [] => none
  | c :: rest =>
    match divMatchLenAt (c :: rest) with
    | some L => some (0, L)
    | none => (leftmostDivMatch rest).map (fun q => (q.1 + 1, q.2))

/-! ### Page wrappers

A parsed `scraper::Html` document is external; each page wrapper is
represented by the answers its selector/attribute queries would give:
`none` when the selector matches no element, `some s` for the selected
element's inner html, and nested `Option` for a link's attribute. -/

/-- `CoverPage` (the novel landing page), by its selector-query results. -/
structure CoverPage where
  titleSel : Option String
  authorSel : Option String
  imgSel : Option (Option String)
  firstSel : Option (Option String)
  deriving DecidableEq, Repr

/-- `ChapterPage`, by its selector-query results. -/
structure ChapterPage where
  titleSel : Option String
  contentSel : Option String
  nextSel : Option (Option String)
  deriving DecidableEq, Repr

/-- `CoverPage::title`: select `h1.novel-title`, fail `Selector` if absent,
else normalize the inner text.  Note: the source has no emptiness check on
the normalized result. -/
def CoverPage.title (cv : CoverPage) : Except NovelError String :=
  match cv.titleSel with
  | none => .error (.Selector "h1.novel-title")
  | some s => .ok (normalizeTitle s)

/-- `CoverPage::author`: trimmed inner text of `div.author > a > span`. -/
def CoverPage.author (cv : CoverPage) : Except NovelError String :=
  match cv.authorSel with
  | none => .error (.Selector "div.author > a > span")
  | some s => .ok (String.mk (trimL s.data))

/-- `CoverPage::cover_img_url`: the `data-src` attribute of the cover
image element. -/
def CoverPage.cover_img_url (cv : CoverPage) : Except NovelError String :=
  match cv.imgSel with
  | none => .error (.Selector "div.fixed-img > figure > img")
  | some none => .error (.Attr "data-src")
  | some (some u) => .ok u

/-- The regex `([[:alpha:]]+)(?:\?v=\d*)??$` tested at one position: a
nonempty alphabetic run, then either end of input or a literal `?v=`
followed by digits running to the end.  (A shorter-than-maximal alphabetic
run is followed by another alphabetic character, which is neither end of
input nor `?`, so only the full run can complete the match.) -/
def extMatchAt (l : List Char) : Option (List Char) :=
  let run := l.takeWhile isAsciiAlpha
  let rest := l.dropWhile isAsciiAlpha
  if run.isEmpty then none
  else if rest.isEmpty then some run
  else if startsWithL ['?', 'v', '='] rest && (rest.drop 3).all isAsciiDigit then some run
  else none

/-- Leftmost-first search for the extension regex over all start positions. -/
def extScan : List Char → Option (List Char)
  | [] => none
  | c :: rest =>
    match extMatchAt (c :: rest) with
    | some r => some r
    | none => extScan rest

/-- `CoverPage::cover_img_type`: capture group 1 of the extension regex on
the cover image URL, or `Image` (`ImageKindUnrecognized`) if no match. -/
def CoverPage.cover_img_type (cv : CoverPage) : Except NovelError String :=
  match cv.cover_img_url with
  | .error e => .error e
  | .ok url =>
    match extScan url.data with
    | some r => .ok (String.mk r)
    | none => .error .Image

/-- Specification-side characterization used by C6: the URL ends with an
alphabetic run, optionally followed by a `?v=<digits>` query suffix (which
is ignored).  Computed from the right: strip the trailing digit run, strip a
`?v=` if it is exactly there, and test whether the remaining last character
is alphabetic (with no stripping when no `?v=` query is present). -/
def hasTrailingAlphaRun (l : List Char) : Bool :=
  let r := l.reverse
  let r' := r.dropWhile isAsciiDigit
  let r2 := if startsWithL ['=', 'v', '?'] r' then r'.drop 3 else r
  match r2 with
  | [] => false
  | c :: _ => isAsciiAlpha c

/-- `CoverPage::chapter_first_url`: the `href` of `#readchapterbtn`. -/
def CoverPage.chapter_first_url (cv : CoverPage) : Except NovelError String :=
  match cv.firstSel with
  | none => .error (.Selector "#readchapterbtn")
  | some none => .error (.Attr "href")
  | some (some u) => .ok u

/-- `ChapterPage::title`: same selector-plus-normalize pattern as the cover
title, on `span.chapter-title`. -/
def ChapterPage.title (p : ChapterPage) : Except NovelError String :=
  match p.titleSel with
  | none => .error (.Selector "span.chapter-title")
  | some s => .ok (normalizeTitle s)

/-- `ChapterPage::content`: trimmed inner html of `div.chapter-content`,
then `remove_ad`. -/
def ChapterPage.content (p : ChapterPage) : Except NovelError String :=
  match p.contentSel with
  | none => .error (.Selector "div.chapter-content")
  | some s => .ok (String.mk (removeAds (trimL s.data)))

/-- `ChapterPage::chapter_next_url`: the `href` of `a.button.nextchap`. -/
def ChapterPage.chapter_next_url (p : ChapterPage) : Except NovelError String :=
  match p.nextSel with
  | none => .error (.Selector "a.button.nextchap")
  | some none => .error (.Attr "href")
  | some (some u) => .ok u

/-- The standalone chapter document skeleton of `compose_xhtml` (declaration,
doctype, head, the title as an `h1` heading, the cleaned body as raw markup).
The exact byte layout produced by the html_builder crate is not load-bearing
for any claim; the embedded fields and their order are. -/
def xhtmlDoc (t c : String) : String :=
  "<?xml version='1.0' encoding='utf-8'?>\n<!DOCTYPE html>\n" ++
  "<html xmlns=\"http://www.w3.org/1999/xhtml\" xml:lang=\"en-US\">" ++
  "<head><meta http-equiv=\"Content-Type\" content=\"text/html; charset=utf-8\" /></head>" ++
  "<body><h1>" ++ t ++ "\n</h1>" ++ c ++ "\n</body></html>"

/-- `ChapterPage::compose_xhtml`: extract the title, then the content, and
embed both in the standalone document; the first extraction failure aborts. -/
def ChapterPage.compose_xhtml (p : ChapterPage) : Except NovelError String := do
  let t ← p.title
  let c ← p.content
  .ok (xhtmlDoc t c)

/-! ### The novel session (`struct Novel`) and traversal -/

/-- The `request_page` oracle: fetching and parsing a URL either yields a
parsed chapter page or fails (transport error, or non-200 status reported
as `Http`). -/
abbrev Fetch := String → Except NovelError ChapterPage

/-- `struct Novel`: working directory, host origin, the owned cover page,
the single current chapter (or none), and the chapter counter. -/
structure Novel where
  workdir : String
  host_url : String
  cover : CoverPage
  chapter : Option ChapterPage
  chapter_id : Nat

/-- The host regex `https*://[[:alpha:]]+\.[[:alpha:]]+\.[[:alpha:]]+`
tested at one position: literal `http`, a greedy run of `s`, literal `://`,
then three nonempty alphabetic labels separated by dots; returns the whole
match (capture 0). -/
def hostMatchAt (l : List Char) : Option (List Char) :=
  if startsWithL ['h', 't', 't', 'p'] l then
    let afterHttp := l.drop 4
    let ss := afterHttp.takeWhile (· = 's')
    let rest0 := afterHttp.drop ss.length
    if startsWithL [':', '/', '/'] rest0 then
      let rest1 := rest0.drop 3
      let a := rest1.takeWhile isAsciiAlpha
      if a.isEmpty then none
      else
        match rest1.drop a.length with
        | '.' :: rest3 =>
          let b := rest3.takeWhile isAsciiAlpha
          if b.isEmpty then none
          else
            match rest3.drop b.length with
            | '.' :: rest5 =>
              let c := rest5.takeWhile isAsciiAlpha
              if c.isEmpty then none
              else
                some (['h', 't', 't', 'p'] ++ ss ++ [':', '/', '/'] ++
                  a ++ ['.'] ++ b ++ ['.'] ++ c)
            | _ => none
        | _ => none
    else none
  else none

/-- `captures_iter(..).next()`: the first (leftmost) match of the host
pattern anywhere in the input. -/
def hostScan : List Char → Option (List Char)
  | [] => none
  | c :: rest =>
    match hostMatchAt (c :: rest) with
    | some m => some m
    | none => hostScan rest

/-- `Novel::host`: first match of the host pattern in the input URL, or
`InvalidUrl` when the pattern occurs nowhere. -/
def Novel.host (title_url : String) : Except NovelError String :=
  match hostScan title_url.data with
  | some m => .ok (String.mk m)
  | none => .error .InvalidUrl

/-- `Novel::new`: derive the host (failure aborts before the fetch), then
fetch and parse the landing page as the cover; `chapter` starts as `None`
and `chapter_id` at 1. -/
def Novel.new (fetchCover : String → Except NovelError CoverPage)
    (title_url workdir : String) : Except NovelError Novel := do
  let h ← Novel.host title_url
  let cv ← fetchCover title_url
  .ok { workdir := workdir, host_url := h, cover := cv, chapter := none, chapter_id := 1 }

/-- `Novel::_chapter_first`: resolve the first-chapter link on the cover and
fetch `host ++ link`. -/
def Novel._chapter_first (env : Fetch) (n : Novel) : Except NovelError ChapterPage := do
  let u ← n.cover.chapter_first_url
  env (n.host_url ++ u)

/-- `Novel::_chapter_next`: resolve the next link on the current chapter
(`Empty` if there is no current chapter) and fetch `host ++ link`. -/
def Novel._chapter_next (env : Fetch) (n : Novel) : Except NovelError ChapterPage :=
  match n.chapter with
  | none => .error .Empty
  | some ch => do
    let u ← ch.chapter_next_url
    env (n.host_url ++ u)

/-- The resolution+fetch attempt performed by one traversal step: the
first-chapter path when there is no current chapter, the next-chapter path
otherwise. -/
def Novel.resolveStep (env : Fetch) (n : Novel) : Except NovelError ChapterPage :=
  match n.chapter with
  | some _ => n._chapter_next env
  | none => n._chapter_first env

/-- `Novel::next`: when a current chapter exists, increment `chapter_id` and
replace the current chapter with `_chapter_next().ok()` (any error is
converted to `None`, never surfaced); otherwise set it to
`_chapter_first().ok()`.  Returns the updated state and what the Rust method
returns (`self.chapter.as_ref()`). -/
def Novel.next (env : Fetch) (n : Novel) : Novel × Option ChapterPage :=
  match n.chapter with
  | some _ =>
    let n1 : Novel := { n with chapter_id := n.chapter_id + 1 }
    let n2 : Novel := { n1 with chapter := (n1._chapter_next env).toOption }
    (n2, n2.chapter)
  | none =>
    let n2 : Novel := { n with chapter := (n._chapter_first env).toOption }
    (n2, n2.chapter)

/-- Rust `format!("{:0>8}", id)`: decimal digits left-padded with zeros to
width 8. -/
def pad8 (n : Nat) : String :=
  let s := toString n
  String.mk (List.replicate (8 - s.length) '0') ++ s

/-- The chapter file path `format!("{novel_dir}/{:0>8} {}.xhtml", ...)`:
working directory, novel title directory, zero-padded sequence number, one
space, chapter title, `.xhtml` extension. -/
def mkChapterPath (w nt : String) (i : Nat) (ct : String) : String :=
  w ++ "/" ++ nt ++ "/" ++ pad8 i ++ " " ++ ct ++ ".xhtml"

/-- `Novel::chapter_save` up to the filesystem write: re-derive the novel
title (the directory name), compose the chapter document (fails if there is
no current chapter), re-derive the chapter title, and produce the target
path `workdir/<title>/<8-digit zero-padded id> <chapter title>.xhtml`
together with the contents; any extraction failure aborts. -/
def Novel.chapter_save (n : Novel) : Except NovelError (String × String) :=
  match n.cover.title with
  | .error e => .error e
  | .ok nt =>
    match n.chapter with
    | none => .error .Empty
    | some ch =>
      match ch.compose_xhtml with
      | .error e => .error e
      | .ok xhtml =>
        match ch.title with
        | .error e => .error e
        | .ok ct => .ok (mkChapterPath n.workdir nt n.chapter_id ct, xhtml)

/-- `std::fs::File::create` + write: create-or-truncate, i.e. overwrite the
path in the file map. -/
def fsWrite (fs : String → Option String) (p v : String) : String → Option String :=
  fun q => if q = p then some v else fs q

/-- `chapter_save` acting on the modelled filesystem (an extraction error
writes nothing; in the program it aborts the run). -/
def Novel.chapter_save_fs (n : Novel) (fs : String → Option String) :
    String → Option String :=
  match n.chapter_save with
  | .error _ => fs
  | .ok pv => fsWrite fs pv.1 pv.2

/-- The driver loop of `main`: `while novel.next().is_some() { novel.chapter_save()?; }`,
returning the (path, contents) writes in order.  Fuel bounds the number of
iterations (the program itself has no bound and simply loops until `next`
yields nothing or a save fails). -/
def runLoop (env : Fetch) : Nat → Novel → List (String × String)
  | 0, _ => []
  | fuel + 1, n =>
    match (Novel.next env n).2 with
    | none => []
    | some _ =>
      match (Novel.next env n).1.chapter_save with
      | .error _ => []
      | .ok w => w :: runLoop env fuel (Novel.next env n).1

/-- The sequence number the next successful save would use: `next` first
increments the counter when a current chapter exists. -/
def startId (n : Novel) : Nat :=
  match n.chapter with
  | some _ => n.chapter_id + 1
  | none => n.chapter_id

/-- A fresh session's traversal-and-save run: `runLoop` from the state
`Novel::new` builds (`chapter = None`, `chapter_id = 1`). -/
def runFromStart (env : Fetch) (fuel : Nat) (w h : String) (cv : CoverPage) :
    List (String × String) :=
  runLoop env fuel { workdir := w, host_url := h, cover := cv, chapter := none, chapter_id := 1 }

/-! ### Archive assembly (`Novel::build_epub`) -/

/-- The chapter display-name regex `\d*? ` applied with `Regex::replace`
(first match only), tested at one position: a lazy digit run followed by a
single space; returns the match length (smallest digit count). -/
def lazyDigitsSpaceAt : List Char → Option Nat
  | [] => none
  | c :: rest =>
    if c = ' ' then some 1
    else if isAsciiDigit c then (lazyDigitsSpaceAt rest).map (· + 1)
    else none

/-- `Regex::new(r"\d*? ").replace(name, "")`: delete the leftmost match (a
shortest digit run plus one space) and keep everything else. -/
def replaceFirstDigitsSpace : List Char → List Char
  | [] => []
  | c :: rest =>
    match lazyDigitsSpaceAt (c :: rest) with
    | some k => (c :: rest).drop k
    | none => c :: replaceFirstDigitsSpace rest

/-- The display chapter title derived from a chapter file name in
`build_epub` (note it keeps the `.xhtml` extension). -/
def chapter_name (f : String) : String :=
  String.mk (replaceFirstDigitsSpace f.data)

/-- Lexicographic byte/character order on names, the order in which the
glob crate yields the files of a directory. -/
def lexLe : List Char → List Char → Bool
  | [], _ => true
  | _ :: _, [] => false
  | a :: as, b :: bs => if a < b then true else if b < a then false else lexLe as bs

/-- Path order for the glob enumeration, on file names. -/
def fileLe (a b : String) : Prop := lexLe a.data b.data = true

instance : DecidableRel fileLe := fun a b => by
  unfold fileLe
  infer_instance

/-- A name matched by the glob pattern `*.xhtml`: it ends with `.xhtml`. -/
def isXhtmlName (f : String) : Bool :=
  startsWithL ['l', 'm', 't', 'h', 'x', '.'] f.data.reverse

/-- What `build_epub` registers, given the directory listing of
`workdir/<title>/`: the author and title metadata are extracted first (a
failure aborts), then the files matched by the cover glob `<title>.<kind>`
are registered as the archive cover image, and the files matched by
`*.xhtml` in glob order — sorted by filename ascending — are each
registered as a content entry whose display title is the file name with the
leading digits-plus-space stripped.  The epub encoder itself (metadata,
inline toc, serialization) is the external collaborator. -/
def build_epub_model (listing : List String) (cv : CoverPage) :
    Except NovelError (List String × List (String × String)) :=
  match cv.author with
  | .error e => .error e
  | .ok _ =>
    match cv.title with
    | .error e => .error e
    | .ok nt =>
      match cv.cover_img_type with
      | .error e => .error e
      | .ok kind =>
        .ok ((listing.insertionSort fileLe).filter (fun f => f = nt ++ "." ++ kind),
          ((listing.filter isXhtmlName).insertionSort fileLe).map
            (fun f => (chapter_name f, f)))

/-! ## Claim theorems -/

/-- C10: the claim says `Display for NovelError` terminates and produces a
description; in the source, `fmt` is `write!(f, "{}", self)`, which invokes
the same `Display::fmt` on `self` again.  The fuel-indexed model shows the
recursion never produces a string for any error value and any amount of
fuel: formatting diverges (in Rust, unbounded recursion until stack
overflow), so this is a code bug, not a property of the code. -/
theorem c10_display_fmt_never_produces_output (fuel : Nat) (e : NovelError) :
    NovelError.displayFmt fuel e = none := by
  induction fuel with
  | zero => rfl
  | succ k ih => exact ih

/-- C3 counterexample: a document whose title selector matches `???` has its
normalization produce the empty string, yet `title()` succeeds with `Ok("")`
rather than failing with `Empty` — the source has no emptiness check. -/
theorem c3_counterexample :
    normalizeTitle "???" = "" ∧
    CoverPage.title
      { titleSel := some "???", authorSel := none, imgSel := none, firstSel := none } =
      .ok "" ∧
    ChapterPage.title
      { titleSel := some "???", contentSel := none, nextSel := none } = .ok "" := by
  refine ⟨?_, ?_, ?_⟩ <;>
    simp [CoverPage.title, ChapterPage.title, normalizeTitle, normalizeTitleL, trimL,
      removeRuns, isWhite, isForbiddenTitleChar]

/-- C3 amended: whenever the title selector matches, `title()` succeeds with
the normalized string — including the empty string as a success value; no
`Empty` (`EmptyField`) failure exists in either `CoverPage::title` or
`ChapterPage::title`. -/
theorem c3_title_succeeds_even_when_empty (cv : CoverPage) (p : ChapterPage)
    (s s' : String) (hcv : cv.titleSel = some s) (hp : p.titleSel = some s') :
    cv.title = .ok (normalizeTitle s) ∧ p.title = .ok (normalizeTitle s') := by
  constructor
  · simp [CoverPage.title, hcv]
  · simp [ChapterPage.title, hp]

/-- Witness for C3's amended theorem at a concrete cover and chapter page
whose title selectors match text that normalizes to the empty string. -/
theorem c3_title_succeeds_even_when_empty_witness :
    CoverPage.title
      { titleSel := some "??", authorSel := none, imgSel := none, firstSel := none } =
      .ok (normalizeTitle "??") ∧
    ChapterPage.title
      { titleSel := some "/:", contentSel := none, nextSel := none } =
      .ok (normalizeTitle "/:") :=
  c3_title_succeeds_even_when_empty
    { titleSel := some "??", authorSel := none, imgSel := none, firstSel := none }
    { titleSel := some "/:", contentSel := none, nextSel := none }
    "??" "/:" rfl rfl

/-- C9: writing the chapter file twice for the same session state (same
sequence number, same chapter title) maps the filesystem to the same state
as writing it once: the path is recomputed deterministically and
`File::create` truncates, so the file is overwritten, not duplicated — in
particular the persisted artifact set (the set of populated paths) is
unchanged by the second call. -/
theorem c9_chapter_save_idempotent (n : Novel) (fs : String → Option String) :
    n.chapter_save_fs (n.chapter_save_fs fs) = n.chapter_save_fs fs := by
  unfold Novel.chapter_save_fs
  cases h : n.chapter_save with
  | error e => rfl
  | ok pv =>
    funext q
    unfold fsWrite
    by_cases hq : q = pv.1 <;> simp [hq]

/-- C1: if the resolution-and-fetch attempt of a traversal step fails for
any reason (next-link element absent, link attribute absent, fetch error,
non-200 status reported as `Http`), `Novel::next` converts the error with
`.ok()` into `None`: it returns no chapter and the session's current
chapter becomes none.  `next` returns a bare `Option`, so no error is ever
surfaced to the caller — the failure reads as normal end-of-book. -/
theorem c1_step_failure_is_end_of_book (env : Fetch) (n : Novel) (e : NovelError)
    (h : n.resolveStep env = .error e) :
    (n.next env).2 = none ∧ ((n.next env).1).chapter = none := by
  obtain ⟨w, hu, cv, ch, cid⟩ := n
  cases ch with
  | none =>
    simp only [Novel.resolveStep] at h
    simp [Novel.next, h, Except.toOption]
  | some c =>
    simp only [Novel.resolveStep, Novel._chapter_next] at h
    simp [Novel.next, Novel._chapter_next, h, Except.toOption]

/-- Witness for C1: a concrete session whose current chapter has no
next-link element; the step fails with `Selector` and `next` ends the
traversal. -/
theorem c1_step_failure_is_end_of_book_witness :
    (Novel.next (fun _ => .error (.Http "404"))
      { workdir := "novel", host_url := "https://www.lightnovelworld.com",
        cover := { titleSel := some "T", authorSel := none, imgSel := none, firstSel := none },
        chapter := some { titleSel := some "C", contentSel := some "x", nextSel := none },
        chapter_id := 1 }).2 = none ∧
    ((Novel.next (fun _ => .error (.Http "404"))
      { workdir := "novel", host_url := "https://www.lightnovelworld.com",
        cover := { titleSel := some "T", authorSel := none, imgSel := none, firstSel := none },
        chapter := some { titleSel := some "C", contentSel := some "x", nextSel := none },
        chapter_id := 1 }).1).chapter = none :=
  c1_step_failure_is_end_of_book (fun _ => .error (.Http "404"))
    { workdir := "novel", host_url := "https://www.lightnovelworld.com",
      cover := { titleSel := some "T", authorSel := none, imgSel := none, firstSel := none },
      chapter := some { titleSel := some "C", contentSel := some "x", nextSel := none },
      chapter_id := 1 }
    (.Selector "a.button.nextchap") rfl

/-- The host regex requires three dot-separated labels, so any successful
match contains at least two `.` characters. -/
theorem hostMatchAt_dots {l m : List Char} (h : hostMatchAt l = some m) :
    2 ≤ l.count '.' := by
  unfold hostMatchAt at h
  simp only [] at h
  split at h
  case isTrue h4 =>
    split at h
    case isTrue h3 =>
      split at h
      case isTrue => exact absurd h (by simp)
      case isFalse ha =>
        split at h
        case h_2 => exact absurd h (by simp)
        case h_1 rest3 heq3 =>
          split at h
          case isTrue => exact absurd h (by simp)
          case isFalse hb =>
            split at h
            case h_2 => exact absurd h (by simp)
            case h_1 rest5 heq5 =>
              have k5 : ('.' :: rest5).count '.' ≤ rest3.count '.' := by
                rw [← heq5]
                exact (List.drop_sublist _ _).count_le '.'
              have k3 : ('.' :: rest3).count '.' ≤
                  (((l.drop 4).drop ((l.drop 4).takeWhile (· = 's')).length).drop 3).count '.' := by
                rw [← heq3]
                exact (List.drop_sublist _ _).count_le '.'
              have k2 : (((l.drop 4).drop ((l.drop 4).takeWhile (· = 's')).length).drop 3).count '.' ≤
                  l.count '.' := by
                calc (((l.drop 4).drop ((l.drop 4).takeWhile (· = 's')).length).drop 3).count '.'
                    ≤ ((l.drop 4).drop ((l.drop 4).takeWhile (· = 's')).length).count '.' :=
                      (List.drop_sublist _ _).count_le '.'
                  _ ≤ (l.drop 4).count '.' := (List.drop_sublist _ _).count_le '.'
                  _ ≤ l.count '.' := (List.drop_sublist _ _).count_le '.'
              have e3 : ('.' :: rest3).count '.' = rest3.count '.' + 1 := by
                simp [List.count_cons]
              have e5 : ('.' :: rest5).count '.' = rest5.count '.' + 1 := by
                simp [List.count_cons]
              omega
    case isFalse => exact absurd h (by simp)
  case isFalse => exact absurd h (by simp)

/-- A successful host search implies the input contains at least two dots. -/
theorem hostScan_dots {l m : List Char} (h : hostScan l = some m) :
    2 ≤ l.count '.' := by
  induction l with
  | nil => simp [hostScan] at h
  | cons c rest ih =>
    unfold hostScan at h
    cases hm : hostMatchAt (c :: rest) with
    | some m' => exact hostMatchAt_dots hm
    | none =>
      rw [hm] at h
      have h2 := ih h
      simp only [List.count_cons]
      omega

/-- C7 counterexample: the claim says host derivation succeeds exactly when
the scheme-plus-labels pattern appears at the start of the URL, with two or
more dot-separated labels.  Both directions fail on the code:
`https://ab.cd/novel/1` has the pattern with two labels at the start yet
fails with `InvalidUrl` (the regex demands three labels), and
`xhttps://a.b.c` does not have the pattern at the start yet succeeds
(`captures_iter` searches anywhere in the input). -/
theorem c7_counterexample :
    Novel.host "https://ab.cd/novel/1" = .error .InvalidUrl ∧
    Novel.host "xhttps://a.b.c" = .ok "https://a.b.c" := by
  constructor <;> rfl

/-- C7 amended: host derivation returns the first match of
`https*://alpha.alpha.alpha` (three dot-separated alphabetic labels)
occurring anywhere in the input URL; in particular the documented example
succeeds, a match not at the start still succeeds, and any URL with fewer
than two `.` characters (hence fewer than three labels anywhere) fails with
`InvalidUrl`, and then `Novel::new` aborts before any fetch is attempted —
for every fetch oracle. -/
theorem c7_host_first_match_three_labels :
    Novel.host "https://example.site.com/novel/123" = .ok "https://example.site.com" ∧
    Novel.host "xhttps://a.b.c" = .ok "https://a.b.c" ∧
    ∀ url : String, url.data.count '.' < 2 →
      Novel.host url = .error .InvalidUrl ∧
      ∀ (fc : String → Except NovelError CoverPage) (w : String),
        Novel.new fc url w = .error .InvalidUrl := by
  refine ⟨rfl, rfl, ?_⟩
  intro url hcount
  have hnone : hostScan url.data = none := by
    cases hs : hostScan url.data with
    | none => rfl
    | some m => exact absurd (hostScan_dots hs) (by omega)
  have hhost : Novel.host url = .error .InvalidUrl := by
    unfold Novel.host
    rw [hnone]
  refine ⟨hhost, ?_⟩
  intro fc w
  unfold Novel.new
  rw [hhost]
  rfl

/-- Witness for C7's amended theorem: `https://abc` has no dots at all, so
host derivation fails and session creation aborts for any fetch oracle. -/
theorem c7_host_first_match_three_labels_witness :
    Novel.host "https://abc" = .error .InvalidUrl ∧
    Novel.new (fun _ => .ok { titleSel := none, authorSel := none, imgSel := none, firstSel := none })
      "https://abc" "novel" = .error .InvalidUrl :=
  ⟨(c7_host_first_match_three_labels.2.2 "https://abc" (by decide)).1,
   (c7_host_first_match_three_labels.2.2 "https://abc" (by decide)).2
     (fun _ => .ok { titleSel := none, authorSel := none, imgSel := none, firstSel := none }) "novel"⟩

/-- Unfolding `removeAds` at a position where a `<div.*?</div>` match
starts: the match is deleted and scanning continues after it. -/
theorem removeAds_cons_some {c : Char} {rest : List Char} {L : Nat}
    (h : divMatchLenAt (c :: rest) = some L) :
    removeAds (c :: rest) = removeAds ((c :: rest).drop L) := by
  conv_lhs => unfold removeAds
  split
  case h_1 L' heq =>
    rw [h] at heq
    injection heq with hL
    rw [hL]
  case h_2 heq =>
    rw [h] at heq
    exact absurd heq (by simp)

/-- Unfolding `removeAds` at a position where no match starts: the
character is kept. -/
theorem removeAds_cons_none {c : Char} {rest : List Char}
    (h : divMatchLenAt (c :: rest) = none) :
    removeAds (c :: rest) = c :: removeAds rest := by
  conv_lhs => unfold removeAds
  split
  case h_1 L' heq =>
    rw [h] at heq
    exact absurd heq (by simp)
  case h_2 heq => rfl

/-- C4 counterexample: on the chapter body `<d<div>a</div>iv>b</div>` the
ad-stripping step deletes only the one (leftmost, shortest) match
`<div>a</div>` in its single pass, and the remnants splice into
`<div>b</div>` — the returned body still contains a substring matching
`<div ... </div>` (a match of length 12 at position 0), so the removal is
not "applied repeatedly until no such match remains". -/
theorem c4_counterexample :
    ChapterPage.content
      { titleSel := none, contentSel := some "<d<div>a</div>iv>b</div>", nextSel := none } =
      .ok "<div>b</div>" ∧
    leftmostDivMatch ("<div>b</div>".data) = some (0, 12) := by
  constructor
  · simp [ChapterPage.content, trimL, removeAds, divMatchLenAt, lazyClose, startsWithL, isWhite]
  · decide

/-- C4 amended: the ad-stripping step is one left-to-right pass of
non-overlapping shortest-match removals — it deletes the leftmost
`<div ... </div>` match and continues after its end (never rescanning the
spliced result, so the returned body may still contain a match). -/
theorem c4_remove_ad_single_pass (l : List Char) (i L : Nat)
    (h : leftmostDivMatch l = some (i, L)) :
    removeAds l = l.take i ++ removeAds (l.drop (i + L)) := by
  induction l generalizing i with
  | nil => simp [leftmostDivMatch] at h
  | cons c rest ih =>
    unfold leftmostDivMatch at h
    cases hm : divMatchLenAt (c :: rest) with
    | some L' =>
      rw [hm] at h
      injection h with h1
      have hi : i = 0 := (congrArg Prod.fst h1).symm
      have hL : L' = L := congrArg Prod.snd h1
      subst hi hL
      simpa using removeAds_cons_some hm
    | none =>
      rw [hm] at h
      obtain ⟨q, hq, hfq⟩ := Option.map_eq_some'.mp h
      obtain ⟨i', L''⟩ := q
      have hi : i = i' + 1 := by
        have := congrArg Prod.fst hfq
        simpa using this.symm
      have hL : L'' = L := by
        have := congrArg Prod.snd hfq
        simpa using this
      subst hi hL
      rw [removeAds_cons_none hm]
      have harith : i' + 1 + L'' = (i' + L'') + 1 := by omega
      rw [harith, List.take_succ_cons, List.drop_succ_cons, ih i' hq]
      rfl

/-- Witness for C4's amended theorem on `x<div>a</div>y`, whose leftmost
match starts at index 1 with length 12. -/
theorem c4_remove_ad_single_pass_witness :
    removeAds ("x<div>a</div>y".data) =
      ("x<div>a</div>y".data).take 1 ++ removeAds (("x<div>a</div>y".data).drop (1 + 12)) :=
  c4_remove_ad_single_pass ("x<div>a</div>y".data) 1 12 (by decide)

/-- A successful prefix test decomposes the list. -/
theorem startsWithL_eq {pat l : List Char} (h : startsWithL pat l = true) :
    l = pat ++ l.drop pat.length := by
  induction pat generalizing l with
  | nil => simp
  | cons p ps ih =>
    cases l with
    | nil => simp [startsWithL] at h
    | cons c cs =>
      unfold startsWithL at h
      obtain ⟨h1, h2⟩ := Bool.and_eq_true_iff.mp h
      have hp : p = c := by simpa using h1
      subst hp
      simpa using ih h2

/-- A pattern is a prefix of itself followed by anything. -/
theorem startsWithL_append_self (pat x : List Char) :
    startsWithL pat (pat ++ x) = true := by
  induction pat with
  | nil => rfl
  | cons p ps ih => simpa [startsWithL] using ih

/-- Dropping a satisfying block crosses an append. -/
theorem dropWhile_append_all {p : Char → Bool} {xs : List Char} (ys : List Char)
    (h : ∀ x ∈ xs, p x = true) :
    (xs ++ ys).dropWhile p = ys.dropWhile p := by
  induction xs with
  | nil => rfl
  | cons x xt ih =>
    have hx : p x = true := h x (by simp)
    simp only [List.cons_append, List.dropWhile_cons_of_pos hx]
    exact ih (fun y hy => h y (by simp [hy]))

/-- When `dropWhile` stops inside the left part, the right part is kept. -/
theorem dropWhile_append_ne_nil {p : Char → Bool} {xs : List Char} (ys : List Char)
    (h : xs.dropWhile p ≠ []) :
    (xs ++ ys).dropWhile p = xs.dropWhile p ++ ys := by
  induction xs with
  | nil => simp at h
  | cons x xt ih =>
    by_cases hx : p x
    · rw [List.dropWhile_cons_of_pos hx] at h
      simp only [List.cons_append, List.dropWhile_cons_of_pos hx, List.dropWhile_cons_of_pos hx] at *
      exact ih h
    · simp [List.cons_append, List.dropWhile_cons_of_neg hx]

/-- The ASCII alphabetic and digit classes are disjoint. -/
theorem alpha_not_digit {c : Char} (h : isAsciiAlpha c = true) :
    isAsciiDigit c = false := by
  by_contra hd
  have hdt : isAsciiDigit c = true := by
    cases hcd : isAsciiDigit c
    · exact absurd hcd hd
    · rfl
  unfold isAsciiDigit at hdt
  obtain ⟨h0, h9⟩ := Bool.and_eq_true_iff.mp hdt
  have h9' : c ≤ '9' := of_decide_eq_true h9
  unfold isAsciiAlpha at h
  rcases Bool.or_eq_true_iff.mp h with h1 | h1 <;>
    obtain ⟨ha, -⟩ := Bool.and_eq_true_iff.mp h1
  · exact absurd (le_trans (of_decide_eq_true ha) h9') (by decide)
  · exact absurd (le_trans (of_decide_eq_true ha) h9') (by decide)

/-- An alphabetic character differs from any non-alphabetic one. -/
theorem alpha_ne {c d : Char} (h : isAsciiAlpha c = true) (hd : isAsciiAlpha d = false) :
    c ≠ d := by
  intro he
  subst he
  simp [hd] at h

/-- A string that is an alphabetic run followed by an admissible tail (empty
or a `?v=<digits>` query) has a trailing alphabetic run. -/
theorem hasTrailing_of_run_post {run post : List Char} (hne : run ≠ [])
    (hall : ∀ c ∈ run, isAsciiAlpha c = true)
    (hpost : post = [] ∨ ∃ ds, post = '?' :: 'v' :: '=' :: ds ∧ ds.all isAsciiDigit = true) :
    hasTrailingAlphaRun (run ++ post) = true := by
  obtain ⟨rs, a, hra⟩ := run.eq_nil_or_concat.resolve_left hne
  have haA : isAsciiAlpha a = true := hall a (by simp [hra])
  have hrev : run.reverse = a :: rs.reverse := by simp [hra]
  have hswf : startsWithL ['=', 'v', '?'] (a :: rs.reverse) = false := by
    have hne2 : ¬('=' = a) := fun h => alpha_ne haA (by decide) h.symm
    simp [startsWithL, hne2]
  rcases hpost with hp | ⟨ds, hp, hds⟩
  · subst hp
    unfold hasTrailingAlphaRun
    simp only []
    rw [List.append_nil, hrev]
    have hdw : List.dropWhile isAsciiDigit (a :: rs.reverse) = a :: rs.reverse :=
      List.dropWhile_cons_of_neg (by simp [alpha_not_digit haA])
    rw [hdw]
    simp only [hswf]
    simp [haA]
  · subst hp
    unfold hasTrailingAlphaRun
    simp only []
    have hrevfull : (run ++ '?' :: 'v' :: '=' :: ds).reverse =
        ds.reverse ++ '=' :: 'v' :: '?' :: run.reverse := by
      simp
    have h1 : List.dropWhile isAsciiDigit (ds.reverse ++ '=' :: 'v' :: '?' :: run.reverse) =
        '=' :: 'v' :: '?' :: run.reverse := by
      rw [dropWhile_append_all _ (fun x hx => ?_)]
      · exact List.dropWhile_cons_of_neg (by decide)
      · have hxm : x ∈ ds := List.mem_reverse.mp hx
        exact List.all_eq_true.mp hds x hxm
    have hsw : startsWithL ['=', 'v', '?'] ('=' :: 'v' :: '?' :: run.reverse) = true := by
      simp [startsWithL]
    rw [hrevfull, h1]
    simp only [hsw]
    simp [hrev, haA]

/-- If the extension regex matches at the head position, the whole string
has a trailing alphabetic run. -/
theorem extMatchAt_trailing {l r : List Char} (h : extMatchAt l = some r) :
    hasTrailingAlphaRun l = true := by
  unfold extMatchAt at h
  simp only [] at h
  split at h
  · exact absurd h (by simp)
  case isFalse hrunne =>
    have hne : l.takeWhile isAsciiAlpha ≠ [] := by
      simpa [List.isEmpty_iff] using hrunne
    have hall : ∀ c ∈ l.takeWhile isAsciiAlpha, isAsciiAlpha c = true :=
      fun c hc => List.mem_takeWhile_imp hc
    have hdecomp : l.takeWhile isAsciiAlpha ++ l.dropWhile isAsciiAlpha = l :=
      List.takeWhile_append_dropWhile isAsciiAlpha l
    rw [← hdecomp]
    split at h
    case isTrue hrest =>
      have hrnil : l.dropWhile isAsciiAlpha = [] := by
        simpa [List.isEmpty_iff] using hrest
      exact hasTrailing_of_run_post hne hall (Or.inl hrnil)
    case isFalse hrest =>
      split at h
      case isTrue hq =>
        obtain ⟨hsw, hall2⟩ := Bool.and_eq_true_iff.mp hq
        have hres : l.dropWhile isAsciiAlpha =
            ['?', 'v', '='] ++ (l.dropWhile isAsciiAlpha).drop 3 := startsWithL_eq hsw
        exact hasTrailing_of_run_post hne hall
          (Or.inr ⟨(l.dropWhile isAsciiAlpha).drop 3, hres, hall2⟩)
      case isFalse => exact absurd h (by simp)

/-- Having a trailing alphabetic run is preserved by prepending any
character (the property only looks at the end of the string). -/
theorem hasTrailing_cons {c : Char} {rest : List Char}
    (h : hasTrailingAlphaRun rest = true) :
    hasTrailingAlphaRun (c :: rest) = true := by
  unfold hasTrailingAlphaRun at h ⊢
  simp only [] at h ⊢
  rw [List.reverse_cons]
  by_cases hsw : startsWithL ['=', 'v', '?'] (List.dropWhile isAsciiDigit rest.reverse) = true
  · rw [if_pos hsw] at h
    have hre : List.dropWhile isAsciiDigit rest.reverse =
        ['=', 'v', '?'] ++ (List.dropWhile isAsciiDigit rest.reverse).drop 3 :=
      startsWithL_eq hsw
    have hne : List.dropWhile isAsciiDigit rest.reverse ≠ [] := by
      rw [hre]
      simp
    rw [dropWhile_append_ne_nil [c] hne]
    cases hd : (List.dropWhile isAsciiDigit rest.reverse).drop 3 with
    | nil => rw [hd] at h; exact absurd h (by simp)
    | cons a t =>
      rw [hd] at h
      have haA : isAsciiAlpha a = true := by simpa using h
      conv_lhs =>
        rw [hre, hd]
      have hsw2 : startsWithL ['=', 'v', '?'] ((['=', 'v', '?'] ++ a :: t) ++ [c]) = true := by
        rw [List.append_assoc]
        exact startsWithL_append_self _ _
      rw [if_pos hsw2]
      exact haA
  · rw [if_neg hsw] at h
    cases hr : rest.reverse with
    | nil => rw [hr] at h; exact absurd h (by simp)
    | cons a t =>
      rw [hr] at h
      have haA : isAsciiAlpha a = true := by simpa using h
      have hdw : List.dropWhile isAsciiDigit (a :: (t ++ [c])) = a :: (t ++ [c]) :=
        List.dropWhile_cons_of_neg (by simp [alpha_not_digit haA])
      have hswf : startsWithL ['=', 'v', '?'] (a :: (t ++ [c])) = false := by
        have hne2 : ¬('=' = a) := fun he => alpha_ne haA (by decide) he.symm
        simp [startsWithL, hne2]
      rw [List.cons_append, hdw, hswf]
      simpa using haA

/-- If the extension search succeeds anywhere, the URL has a trailing
alphabetic run (possibly followed by a `?v=<digits>` query). -/
theorem extScan_trailing {l r : List Char} (h : extScan l = some r) :
    hasTrailingAlphaRun l = true := by
  induction l with
  | nil => simp [extScan] at h
  | cons c rest ih =>
    unfold extScan at h
    cases hm : extMatchAt (c :: rest) with
    | some r' => exact extMatchAt_trailing hm
    | none =>
      rw [hm] at h
      exact hasTrailing_cons (ih h)

/-- C6: `cover_image_kind` on a URL ending `.../cover.jpg?v=3` returns
`jpg` (the `?v=<digits>` suffix is ignored), on `.../cover.PNG` returns
`PNG`, and for every URL with no trailing alphabetic run at the matched
position (no alphabetic-run suffix, with or without a `?v=<digits>` query)
it fails with `Image` (`ImageKindUnrecognized`). -/
theorem c6_cover_image_kind :
    CoverPage.cover_img_type
      { titleSel := none, authorSel := none,
        imgSel := some (some "https://example.site.com/bookcover/cover.jpg?v=3"),
        firstSel := none } = .ok "jpg" ∧
    CoverPage.cover_img_type
      { titleSel := none, authorSel := none,
        imgSel := some (some "https://example.site.com/bookcover/cover.PNG"),
        firstSel := none } = .ok "PNG" ∧
    ∀ (cv : CoverPage) (url : String), cv.imgSel = some (some url) →
      hasTrailingAlphaRun url.data = false →
      cv.cover_img_type = .error .Image := by
  refine ⟨rfl, rfl, ?_⟩
  intro cv url hsel htr
  have hurl : cv.cover_img_url = .ok url := by
    unfold CoverPage.cover_img_url
    rw [hsel]
  have hscan : extScan url.data = none := by
    cases hs : extScan url.data with
    | none => rfl
    | some r =>
      rw [extScan_trailing hs] at htr
      exact absurd htr (by simp)
  simp [CoverPage.cover_img_type, hurl, hscan]

/-- Witness for C6 at a URL ending in digits, which has no trailing
alphabetic run. -/
theorem c6_cover_image_kind_witness :
    CoverPage.cover_img_type
      { titleSel := none, authorSel := none,
        imgSel := some (some "https://example.site.com/bookcover/12345"),
        firstSel := none } = .error .Image :=
  c6_cover_image_kind.2.2
    { titleSel := none, authorSel := none,
      imgSel := some (some "https://example.site.com/bookcover/12345"),
      firstSel := none }
    "https://example.site.com/bookcover/12345" rfl (by decide)

/-- Unfolding `removeRuns` at a non-class character: it is kept. -/
theorem removeRuns_cons_of_neg {p : Char → Bool} {m : Nat} {c : Char} {rest : List Char}
    (h : p c = false) :
    removeRuns p m (c :: rest) = c :: removeRuns p m rest := by
  conv_lhs => unfold removeRuns
  simp [h]

/-- Unfolding `removeRuns` at a run of at least the threshold length: the
run is deleted. -/
theorem removeRuns_cons_of_ge {p : Char → Bool} {m : Nat} {c : Char} {rest : List Char}
    (h : p c = true) (hge : m ≤ ((c :: rest).takeWhile p).length) :
    removeRuns p m (c :: rest) = removeRuns p m ((c :: rest).dropWhile p) := by
  conv_lhs => unfold removeRuns
  rw [dif_pos h, if_pos hge]

/-- Unfolding `removeRuns` at a run shorter than the threshold: the run is
kept and scanning resumes after it. -/
theorem removeRuns_cons_of_lt {p : Char → Bool} {m : Nat} {c : Char} {rest : List Char}
    (h : p c = true) (hlt : ¬ m ≤ ((c :: rest).takeWhile p).length) :
    removeRuns p m (c :: rest) =
      (c :: rest).takeWhile p ++ removeRuns p m ((c :: rest).dropWhile p) := by
  conv_lhs => unfold removeRuns
  rw [dif_pos h, if_neg hlt]

/-- `removeRuns` only deletes characters: the result is a sublist of the
input. -/
theorem removeRuns_sublist (p : Char → Bool) (m : Nat) (l : List Char) :
    List.Sublist (removeRuns p m l) l := by
  induction l using removeRuns.induct p m with
  | case1 => simp [removeRuns]
  | case2 c rest hp hge ih =>
    rw [removeRuns_cons_of_ge hp hge]
    exact ih.trans (List.dropWhile_sublist _)
  | case3 c rest hp hlt ih =>
    rw [removeRuns_cons_of_lt hp hlt]
    have h2 := ih.append_left ((c :: rest).takeWhile p)
    rw [List.takeWhile_append_dropWhile] at h2
    exact h2
  | case4 c rest hnp ih =>
    rw [removeRuns_cons_of_neg (by simpa using hnp)]
    exact ih.cons₂ c

/-- With threshold 1, every class character is deleted: no member of the
result satisfies the class. -/
theorem mem_removeRuns_one {p : Char → Bool} {l : List Char} {c : Char}
    (h : c ∈ removeRuns p 1 l) : p c = false := by
  induction l using removeRuns.induct p 1 with
  | case1 => simp [removeRuns] at h
  | case2 d rest hp hge ih =>
    rw [removeRuns_cons_of_ge hp hge] at h
    exact ih h
  | case3 d rest hp hlt ih =>
    exfalso
    apply hlt
    rw [List.takeWhile_cons_of_pos hp]
    simp
  | case4 d rest hnp ih =>
    rw [removeRuns_cons_of_neg (by simpa using hnp)] at h
    rcases List.mem_cons.mp h with h1 | h1
    · subst h1
      simpa using hnp
    · exact ih h1

/-- The head of a `dropWhile` result does not satisfy the predicate. -/
theorem dropWhile_head_neg {p : Char → Bool} {l t : List Char} {d : Char}
    (h : l.dropWhile p = d :: t) : p d = false := by
  induction l with
  | nil => simp [List.dropWhile] at h
  | cons x xs ih =>
    by_cases hx : p x
    · rw [List.dropWhile_cons_of_pos hx] at h
      exact ih h
    · rw [List.dropWhile_cons_of_neg hx] at h
      injection h with h1 h2
      subst h1
      simpa using hx

/-- With threshold 2, the result never contains two adjacent class
characters: every maximal run of length at least 2 was deleted outright and
the surviving singletons are separated by non-class characters. -/
theorem chain'_removeRuns_two (p : Char → Bool) (l : List Char) :
    List.Chain' (fun a b => ¬(p a = true ∧ p b = true)) (removeRuns p 2 l) := by
  induction l using removeRuns.induct p 2 with
  | case1 => simp [removeRuns]
  | case2 c rest hp hge ih =>
    rw [removeRuns_cons_of_ge hp hge]
    exact ih
  | case3 c rest hp hlt ih =>
    have htw : List.takeWhile p (c :: rest) = [c] := by
      rw [List.takeWhile_cons_of_pos hp]
      cases htr : List.takeWhile p rest with
      | nil => rfl
      | cons d t =>
        exfalso
        apply hlt
        rw [List.takeWhile_cons_of_pos hp, htr]
        simp only [List.length_cons]
        omega
    rw [removeRuns_cons_of_lt hp hlt, htw]
    cases hdw : List.dropWhile p (c :: rest) with
    | nil => simp [removeRuns]
    | cons d t =>
      have hd : p d = false := dropWhile_head_neg hdw
      rw [List.singleton_append, removeRuns_cons_of_neg hd]
      refine List.chain'_cons.mpr ⟨?_, ?_⟩
      · intro hc
        rw [hd] at hc
        exact absurd hc.2 (by simp)
      · rw [hdw, removeRuns_cons_of_neg hd] at ih
        exact ih
  | case4 c rest hnp ih =>
    rw [removeRuns_cons_of_neg (by simpa using hnp)]
    refine List.chain'_cons'.mpr ⟨?_, ih⟩
    intro y hy hcy
    exact hnp hcy.1

/-- Trimming only deletes characters. -/
theorem trimL_sublist (l : List Char) : List.Sublist (trimL l) l := by
  unfold trimL
  have h1 : List.Sublist ((l.dropWhile isWhite).reverse.dropWhile isWhite)
      (l.dropWhile isWhite).reverse := List.dropWhile_sublist _
  have h2 := h1.reverse
  rw [List.reverse_reverse] at h2
  exact h2.trans (List.dropWhile_sublist _)

/-- C8: the normalized title contains no forbidden character (none of
`\ | / : " ? CR LF`), never contains two adjacent whitespace characters
(every run of two or more was deleted), and the deletion replaces a run
with nothing rather than a single space (`a  b` becomes `ab`). -/
theorem c8_title_normalization (s : String) :
    (∀ c ∈ (normalizeTitle s).data, isForbiddenTitleChar c = false) ∧
    List.Chain' (fun a b => ¬(isWhite a = true ∧ isWhite b = true)) (normalizeTitle s).data ∧
    normalizeTitle "a  b" = "ab" := by
  refine ⟨?_, ?_, ?_⟩
  · intro c hc
    have hc1 : c ∈ normalizeTitleL s.data := hc
    unfold normalizeTitleL at hc1
    have hc2 : c ∈ trimL (removeRuns isForbiddenTitleChar 1 (trimL s.data)) :=
      (removeRuns_sublist _ _ _).subset hc1
    have hc3 : c ∈ removeRuns isForbiddenTitleChar 1 (trimL s.data) :=
      (trimL_sublist _).subset hc2
    exact mem_removeRuns_one hc3
  · exact chain'_removeRuns_two isWhite _
  · simp [normalizeTitle, normalizeTitleL, trimL, removeRuns, isWhite, isForbiddenTitleChar]

/-- `Novel::next` only touches `chapter` and `chapter_id`: the working
directory and cover are unchanged, the counter becomes `startId`, and the
returned option is exactly the stored current chapter. -/
theorem next_fields (env : Fetch) (n : Novel) :
    (Novel.next env n).1.workdir = n.workdir ∧
    (Novel.next env n).1.cover = n.cover ∧
    (Novel.next env n).1.chapter_id = startId n ∧
    (Novel.next env n).2 = (Novel.next env n).1.chapter := by
  obtain ⟨w, h, cv, ch, cid⟩ := n
  cases ch <;> simp [Novel.next, startId]

/-- A successful `chapter_save` wrote to the deterministic chapter path for
the current counter value, with the novel title extracted from the cover. -/
theorem chapter_save_ok {n : Novel} {pv : String × String}
    (h : n.chapter_save = .ok pv) :
    ∃ nt ct, n.cover.title = .ok nt ∧
      pv.1 = mkChapterPath n.workdir nt n.chapter_id ct := by
  unfold Novel.chapter_save at h
  split at h
  case h_1 => exact absurd h (by simp)
  case h_2 nt heq =>
    split at h
    case h_1 => exact absurd h (by simp)
    case h_2 ch heq2 =>
      split at h
      case h_1 => exact absurd h (by simp)
      case h_2 xh heq3 =>
        split at h
        case h_1 => exact absurd h (by simp)
        case h_2 ct heq4 =>
          injection h with h1
          exact ⟨nt, ct, heq, by rw [← h1]⟩

/-- Invariant of the driver loop: from any state, the saved files are the
consecutive sequence numbers `startId, startId+1, …` zipped with the
saved chapters' titles, all under the novel-title directory. -/
theorem runLoop_consecutive (env : Fetch) (fuel : Nat) :
    ∀ n : Novel, ∃ nt ts,
      (runLoop env fuel n).map Prod.fst =
        (List.zip (List.range' (startId n) ts.length) ts).map
          (fun it => mkChapterPath n.workdir nt it.1 it.2) ∧
      (ts = [] ∨ n.cover.title = .ok nt) := by
  induction fuel with
  | zero =>
    intro n
    exact ⟨"", [], by simp [runLoop], Or.inl rfl⟩
  | succ k ih =>
    intro n
    obtain ⟨hw, hcv, hid, hch⟩ := next_fields env n
    cases hs : (Novel.next env n).2 with
    | none =>
      refine ⟨"", [], ?_, Or.inl rfl⟩
      conv_lhs => unfold runLoop
      rw [hs]
      simp
    | some c =>
      cases hsave : (Novel.next env n).1.chapter_save with
      | error e =>
        refine ⟨"", [], ?_, Or.inl rfl⟩
        conv_lhs => unfold runLoop
        rw [hs, hsave]
        simp
      | ok pv =>
        obtain ⟨nt, ct, hnt, hpv⟩ := chapter_save_ok hsave
        obtain ⟨nt', ts', hts', hnt'⟩ := ih (Novel.next env n).1
        have hsid : startId (Novel.next env n).1 = startId n + 1 := by
          unfold startId
          rw [← hch, hs, hid]
          simp [startId]
        have key : (runLoop env (k + 1) n).map Prod.fst =
            pv.1 :: (runLoop env k (Novel.next env n).1).map Prod.fst := by
          conv_lhs => unfold runLoop
          rw [hs, hsave]
          simp
        refine ⟨nt, ct :: ts', ?_, Or.inr ?_⟩
        · rw [key, List.length_cons, List.range'_succ, List.zip_cons_cons, List.map_cons]
          congr 1
          · rw [hpv, hw, hid]
          · rcases hnt' with hts'nil | hok
            · subst hts'nil
              simpa using hts'
            · have hnteq : nt' = nt := by
                rw [hcv] at hok
                rw [hcv] at hnt
                exact Except.ok.inj (hok.symm.trans hnt)
              rw [hts', hsid, hw, hnteq]
        · rw [hcv] at hnt
          exact hnt

/-- C2: on a fresh session, for every fetch oracle and any number of loop
iterations, the saved chapter files are exactly the paths
`workdir/<title>/<8-digit zero-padded i> <chapter title>.xhtml` for
`i = 1, 2, …, n` in order, where `n` is the number of chapters the
traversal yielded: numbering starts at 1, increments by exactly 1 per
successful advance, and has no gaps (a failed save aborts the run, leaving
the already-written consecutive prefix). -/
theorem c2_chapter_numbering (env : Fetch) (fuel : Nat) (w h : String) (cv : CoverPage) :
    ∃ nt ts,
      (runFromStart env fuel w h cv).map Prod.fst =
        (List.zip (List.range' 1 ts.length) ts).map
          (fun it => mkChapterPath w nt it.1 it.2) ∧
      (ts = [] ∨ cv.title = .ok nt) := by
  have hmain := runLoop_consecutive env fuel
    { workdir := w, host_url := h, cover := cv, chapter := none, chapter_id := 1 }
  simpa [runFromStart, startId] using hmain

/-- Lexicographic comparison skips an equal head. -/
theorem lexLe_cons_same {c : Char} {as bs : List Char} :
    lexLe (c :: as) (c :: bs) = lexLe as bs := by
  simp [lexLe, lt_irrefl]

/-- The file order is total. -/
theorem lexLe_total (a : List Char) : ∀ b, lexLe a b = true ∨ lexLe b a = true := by
  induction a with
  | nil => intro b; left; rfl
  | cons x xs ih =>
    intro b
    cases b with
    | nil => right; rfl
    | cons y ys =>
      rcases lt_trichotomy x y with h | h | h
      · left; simp [lexLe, h]
      · subst h
        rcases ih ys with h2 | h2
        · left; rw [lexLe_cons_same]; exact h2
        · right; rw [lexLe_cons_same]; exact h2
      · right; simp [lexLe, h]

/-- The file order is transitive. -/
theorem lexLe_trans {a : List Char} : ∀ {b c : List Char},
    lexLe a b = true → lexLe b c = true → lexLe a c = true := by
  induction a with
  | nil => intro b c _ _; rfl
  | cons x xs ih =>
    intro b c hab hbc
    cases b with
    | nil => simp [lexLe] at hab
    | cons y ys =>
      cases c with
      | nil => simp [lexLe] at hbc
      | cons z zs =>
        rcases lt_trichotomy x y with hxy | hxy | hxy
        · rcases lt_trichotomy y z with hyz | hyz | hyz
          · simp [lexLe, lt_trans hxy hyz]
          · subst hyz; simp [lexLe, hxy]
          · rw [lexLe] at hbc
            rw [if_neg (asymm hyz), if_pos hyz] at hbc
            exact absurd hbc (by simp)
        · subst hxy
          rcases lt_trichotomy x z with hyz | hyz | hyz
          · simp [lexLe, hyz]
          · subst hyz
            rw [lexLe_cons_same] at hab hbc ⊢
            exact ih hab hbc
          · rw [lexLe] at hbc
            rw [if_neg (asymm hyz), if_pos hyz] at hbc
            exact absurd hbc (by simp)
        · rw [lexLe] at hab
          rw [if_neg (asymm hxy), if_pos hxy] at hab
          exact absurd hab (by simp)

/-- The file order is antisymmetric. -/
theorem lexLe_antisymm {a : List Char} : ∀ {b : List Char},
    lexLe a b = true → lexLe b a = true → a = b := by
  induction a with
  | nil =>
    intro b _ hba
    cases b with
    | nil => rfl
    | cons y ys => simp [lexLe] at hba
  | cons x xs ih =>
    intro b hab hba
    cases b with
    | nil => simp [lexLe] at hab
    | cons y ys =>
      rcases lt_trichotomy x y with hxy | hxy | hxy
      · rw [lexLe] at hba
        rw [if_neg (asymm hxy), if_pos hxy] at hba
        exact absurd hba (by simp)
      · subst hxy
        rw [lexLe_cons_same] at hab hba
        rw [ih hab hba]
      · rw [lexLe] at hab
        rw [if_neg (asymm hxy), if_pos hxy] at hab
        exact absurd hab (by simp)

instance : IsTotal String fileLe :=
  ⟨fun a b => by
    unfold fileLe
    exact lexLe_total a.data b.data⟩

instance : IsTrans String fileLe :=
  ⟨fun a b c hab hbc => lexLe_trans hab hbc⟩

instance : IsAntisymm String fileLe :=
  ⟨fun a b hab hba => by
    have hd : a.data = b.data := lexLe_antisymm hab hba
    cases a
    cases b
    exact congrArg String.mk hd⟩

theorem lexLe_append_lt (pref : List Char) {c d : Char} (h : c < d) (x y : List Char) :
    lexLe (pref ++ c :: x) (pref ++ d :: y) = true := by
  induction pref with
  | nil => simp [lexLe, h]
  | cons a t ih => simpa [lexLe, lt_irrefl] using ih

/-- Two chapter file names with the common `0000000` prefix compare by
their eighth character, whatever follows. -/
theorem lexLe_pad_lt {c d : Char} (h : c < d) (x y : List Char) :
    lexLe ('0' :: '0' :: '0' :: '0' :: '0' :: '0' :: '0' :: c :: x)
      ('0' :: '0' :: '0' :: '0' :: '0' :: '0' :: '0' :: d :: y) = true := by
  simp only [lexLe_cons_same]
  simp [lexLe, h]

/-- The lazy digits-plus-space pattern matches a digit prefix followed by a
space, consuming exactly the digits and the space. -/
theorem lazyDigitsSpaceAt_digits {digits : List Char}
    (h : ∀ c ∈ digits, isAsciiDigit c = true) (t : List Char) :
    lazyDigitsSpaceAt (digits ++ ' ' :: t) = some (digits.length + 1) := by
  induction digits with
  | nil => simp [lazyDigitsSpaceAt]
  | cons d ds ih =>
    have hd := h d (by simp)
    have hne : ¬ d = ' ' := fun he => by rw [he] at hd; exact absurd hd (by decide)
    rw [List.cons_append]
    unfold lazyDigitsSpaceAt
    rw [if_neg hne, if_pos hd, ih (fun c hc => h c (by simp [hc]))]
    simp

/-- Deleting the first digits-plus-space match from
`<digits> <rest>` leaves `<rest>`. -/
theorem replaceFirst_digits_space {digits t : List Char}
    (h : ∀ c ∈ digits, isAsciiDigit c = true) :
    replaceFirstDigitsSpace (digits ++ ' ' :: t) = t := by
  cases digits with
  | nil => simp [replaceFirstDigitsSpace, lazyDigitsSpaceAt]
  | cons d ds =>
    have hlz := lazyDigitsSpaceAt_digits h t
    rw [List.cons_append] at hlz ⊢
    unfold replaceFirstDigitsSpace
    rw [hlz]
    have hsplit : d :: (ds ++ ' ' :: t) = ((d :: ds) ++ [' ']) ++ t := by simp
    have hlen : (d :: ds).length + 1 = ((d :: ds) ++ [' ']).length := by simp
    rw [hsplit, hlen]
    dsimp only
    rw [List.drop_left]

/-- The display-name derivation strips exactly the zero-padded numeric
prefix and the following space from a chapter file name. -/
theorem chapter_name_strip {i : Nat} (hd : ∀ c ∈ (pad8 i).data, isAsciiDigit c = true)
    (t : String) :
    chapter_name (pad8 i ++ " " ++ t) = t := by
  unfold chapter_name
  have hdata : (pad8 i ++ " " ++ t).data = (pad8 i).data ++ ' ' :: t.data := by
    rw [String.data_append, String.data_append, List.append_assoc]
    rfl
  rw [hdata, replaceFirst_digits_space hd]

/-- Any name of the form `s.xhtml` is matched by the `*.xhtml` glob. -/
theorem isXhtmlName_append (s : String) : isXhtmlName (s ++ ".xhtml") = true := by
  unfold isXhtmlName
  rw [String.data_append]
  have hrev : (s.data ++ (".xhtml" : String).data).reverse =
      ['l', 'm', 't', 'h', 'x', '.'] ++ s.data.reverse := by
    rw [List.reverse_append]
    rfl
  rw [hrev, startsWithL_append_self]

/-- C5: for a working directory whose listing is exactly one cover image
`<title>.<kind>` plus the three chapter files `00000001 …`, `00000002 …`,
`00000003 …` (in any order on disk), `build()` registers the matching cover
image as the archive cover and registers the chapter files as content
entries sorted by filename ascending — hence in numeric sequence order —
each entry's display title being its file name with the leading
numeric-prefix-plus-space stripped. -/
theorem c5_build_epub_sorted_entries (cv : CoverPage) (nt kind a t1 t2 t3 : String) (listing : List String)
    (hauthor : cv.author = .ok a) (hnt : cv.title = .ok nt)
    (hkind : cv.cover_img_type = .ok kind)
    (hperm : listing.Perm [nt ++ "." ++ kind,
      pad8 1 ++ " " ++ t1 ++ ".xhtml", pad8 2 ++ " " ++ t2 ++ ".xhtml",
      pad8 3 ++ " " ++ t3 ++ ".xhtml"])
    (hcov : isXhtmlName (nt ++ "." ++ kind) = false) :
    build_epub_model listing cv =
      .ok ([nt ++ "." ++ kind],
        [(t1 ++ ".xhtml", pad8 1 ++ " " ++ t1 ++ ".xhtml"),
         (t2 ++ ".xhtml", pad8 2 ++ " " ++ t2 ++ ".xhtml"),
         (t3 ++ ".xhtml", pad8 3 ++ " " ++ t3 ++ ".xhtml")]) := by
  have hx1 : isXhtmlName (pad8 1 ++ " " ++ t1 ++ ".xhtml") = true := isXhtmlName_append _
  have hx2 : isXhtmlName (pad8 2 ++ " " ++ t2 ++ ".xhtml") = true := isXhtmlName_append _
  have hx3 : isXhtmlName (pad8 3 ++ " " ++ t3 ++ ".xhtml") = true := isXhtmlName_append _
  have hne1 : ¬ (pad8 1 ++ " " ++ t1 ++ ".xhtml" = nt ++ "." ++ kind) := fun he => by
    rw [← he, hx1] at hcov
    exact absurd hcov (by simp)
  have hne2 : ¬ (pad8 2 ++ " " ++ t2 ++ ".xhtml" = nt ++ "." ++ kind) := fun he => by
    rw [← he, hx2] at hcov
    exact absurd hcov (by simp)
  have hne3 : ¬ (pad8 3 ++ " " ++ t3 ++ ".xhtml" = nt ++ "." ++ kind) := fun he => by
    rw [← he, hx3] at hcov
    exact absurd hcov (by simp)
  have hp1 : (pad8 1).data = ['0', '0', '0', '0', '0', '0', '0', '1'] := by decide
  have hp2 : (pad8 2).data = ['0', '0', '0', '0', '0', '0', '0', '2'] := by decide
  have hp3 : (pad8 3).data = ['0', '0', '0', '0', '0', '0', '0', '3'] := by decide
  have hle12 : fileLe (pad8 1 ++ " " ++ t1 ++ ".xhtml") (pad8 2 ++ " " ++ t2 ++ ".xhtml") := by
    show lexLe _ _ = true
    simp only [String.data_append, hp1, hp2, List.append_assoc, List.cons_append,
      List.nil_append]
    exact lexLe_pad_lt (by decide) _ _
  have hle13 : fileLe (pad8 1 ++ " " ++ t1 ++ ".xhtml") (pad8 3 ++ " " ++ t3 ++ ".xhtml") := by
    show lexLe _ _ = true
    simp only [String.data_append, hp1, hp3, List.append_assoc, List.cons_append,
      List.nil_append]
    exact lexLe_pad_lt (by decide) _ _
  have hle23 : fileLe (pad8 2 ++ " " ++ t2 ++ ".xhtml") (pad8 3 ++ " " ++ t3 ++ ".xhtml") := by
    show lexLe _ _ = true
    simp only [String.data_append, hp2, hp3, List.append_assoc, List.cons_append,
      List.nil_append]
    exact lexLe_pad_lt (by decide) _ _
  have hsorted : List.Sorted fileLe [pad8 1 ++ " " ++ t1 ++ ".xhtml",
      pad8 2 ++ " " ++ t2 ++ ".xhtml", pad8 3 ++ " " ++ t3 ++ ".xhtml"] := by
    refine List.sorted_cons.mpr ⟨?_, List.sorted_cons.mpr ⟨?_, ?_⟩⟩
    · intro b hb
      rcases List.mem_cons.mp hb with h1 | h1
      · rw [h1]; exact hle12
      · rcases List.mem_cons.mp h1 with h2 | h2
        · rw [h2]; exact hle13
        · simp at h2
    · intro b hb
      rcases List.mem_cons.mp hb with h1 | h1
      · rw [h1]; exact hle23
      · simp at h1
    · simp
  have hcoverEq : (listing.insertionSort fileLe).filter
      (fun f => f = nt ++ "." ++ kind) = [nt ++ "." ++ kind] := by
    apply List.perm_singleton.mp
    have hpermA := ((List.perm_insertionSort fileLe listing).trans hperm).filter
      (fun f => decide (f = nt ++ "." ++ kind))
    have hfiltered : List.filter (fun f => decide (f = nt ++ "." ++ kind))
        [nt ++ "." ++ kind,
         pad8 1 ++ " " ++ t1 ++ ".xhtml", pad8 2 ++ " " ++ t2 ++ ".xhtml",
         pad8 3 ++ " " ++ t3 ++ ".xhtml"] = [nt ++ "." ++ kind] := by
      simp [List.filter, hne1, hne2, hne3]
    rw [hfiltered] at hpermA
    exact hpermA
  have hfil : (listing.filter isXhtmlName).Perm
      [pad8 1 ++ " " ++ t1 ++ ".xhtml", pad8 2 ++ " " ++ t2 ++ ".xhtml",
       pad8 3 ++ " " ++ t3 ++ ".xhtml"] := by
    have hpermB := hperm.filter isXhtmlName
    have hfiltered : List.filter isXhtmlName
        [nt ++ "." ++ kind,
         pad8 1 ++ " " ++ t1 ++ ".xhtml", pad8 2 ++ " " ++ t2 ++ ".xhtml",
         pad8 3 ++ " " ++ t3 ++ ".xhtml"] =
        [pad8 1 ++ " " ++ t1 ++ ".xhtml", pad8 2 ++ " " ++ t2 ++ ".xhtml",
         pad8 3 ++ " " ++ t3 ++ ".xhtml"] := by
      simp [List.filter, hcov, hx1, hx2, hx3]
    rw [hfiltered] at hpermB
    exact hpermB
  have hsortEq : (listing.filter isXhtmlName).insertionSort fileLe =
      [pad8 1 ++ " " ++ t1 ++ ".xhtml", pad8 2 ++ " " ++ t2 ++ ".xhtml",
       pad8 3 ++ " " ++ t3 ++ ".xhtml"] :=
    List.eq_of_perm_of_sorted
      ((List.perm_insertionSort fileLe _).trans hfil)
      (List.sorted_insertionSort fileLe _) hsorted
  have hstrip1 : chapter_name (pad8 1 ++ " " ++ t1 ++ ".xhtml") = t1 ++ ".xhtml" := by
    rw [String.append_assoc]
    exact chapter_name_strip (by rw [hp1]; decide) _
  have hstrip2 : chapter_name (pad8 2 ++ " " ++ t2 ++ ".xhtml") = t2 ++ ".xhtml" := by
    rw [String.append_assoc]
    exact chapter_name_strip (by rw [hp2]; decide) _
  have hstrip3 : chapter_name (pad8 3 ++ " " ++ t3 ++ ".xhtml") = t3 ++ ".xhtml" := by
    rw [String.append_assoc]
    exact chapter_name_strip (by rw [hp3]; decide) _
  unfold build_epub_model
  rw [hauthor, hnt, hkind]
  dsimp only
  rw [hcoverEq, hsortEq]
  simp [hstrip1, hstrip2, hstrip3]

/-- Witness for C5 on a concrete scrambled listing. -/
theorem c5_build_epub_sorted_entries_witness :
    build_epub_model
      ["00000002 b.xhtml", "N.jpg", "00000003 c.xhtml", "00000001 a.xhtml"]
      { titleSel := some "N", authorSel := some "A",
        imgSel := some (some "https://x.y.z/c/cover.jpg"), firstSel := none } =
      .ok (["N" ++ "." ++ "jpg"],
        [("a" ++ ".xhtml", pad8 1 ++ " " ++ "a" ++ ".xhtml"),
         ("b" ++ ".xhtml", pad8 2 ++ " " ++ "b" ++ ".xhtml"),
         ("c" ++ ".xhtml", pad8 3 ++ " " ++ "c" ++ ".xhtml")]) :=
  c5_build_epub_sorted_entries
    { titleSel := some "N", authorSel := some "A",
      imgSel := some (some "https://x.y.z/c/cover.jpg"), firstSel := none }
    "N" "jpg" "A" "a" "b" "c"
    ["00000002 b.xhtml", "N.jpg", "00000003 c.xhtml", "00000001 a.xhtml"]
    (by simp [CoverPage.author, trimL, isWhite])
    (by simp [CoverPage.title, normalizeTitle, normalizeTitleL, trimL, removeRuns,
      isWhite, isForbiddenTitleChar])
    rfl
    (by decide)
    (by decide)

end Novel2Epub





